import Mathlib

/-!
Verification of the algopy computational-graph tracer (src/algopy/tracer/tracer.py)
and of the nth-derivative decorator (src/algopy/nthderiv/nthderiv.py).

The tracer records a DAG of elementary operations as a list of Function nodes
inside a CGraph, then replays it forward (push_forward) and backward (pullback).
Python object references are modelled as indices into the graph's node list;
Python exceptions are modelled with an explicit error type carried by Except,
whose error payload also records the node-list state at the moment the
exception is raised (Python leaves the mutated objects behind on a raise).
-/

namespace Algopy

/-- Values carried by nodes: a Python scalar (float, modelled by a rational),
an array-like object supporting elementwise item assignment and `zeros_like`
(such as a UTPM instance), or a Python tuple of values (the multi-output case). -/
inductive Val where
  | scalar (q : ℚ)
  | arr (xs : List ℚ)
  | tup (ts : List Val)

/-- An elementary operation, as stored in a node's `func` field: a Python
callable receiving the argument values followed by the auxiliary `funcargs`. -/
def Fn : Type := List Val → Val

/-- The identity function of the tracer (`Function.Id`): returns its first
positional argument. -/
def FId : Fn := fun xs => xs.headD (Val.scalar 0)

/-- Python exceptions relevant to the traced code. -/
inductive PyErr where
  | indexError (msg : String)
  | typeError (msg : String)
  | valueError (msg : String)
  | attributeError (msg : String)
  | exception (msg : String)
  | badRef
deriving DecidableEq

/-- A Function node of the computational graph.  `xbar = none` models the
class-level `NotSet` sentinel; `some v` models a set adjoint.  `args` holds
indices of the argument nodes inside the owning graph's `functionList`. -/
structure Node where
  func : Fn
  args : List Nat
  funcargs : List Val
  ID : Nat
  x : Val
  xbar : Option Val

/-- The computational graph, mirroring CGraph's four attributes.  The
independent and dependent lists hold indices into `functionList`. -/
structure CGraph where
  functionCount : Nat
  functionList : List Node
  independentFunctionList : List Nat
  dependentFunctionList : List Nat

def CGraph.empty : CGraph := ⟨0, [], [], []⟩

def withNodes (g : CGraph) (ns : List Node) : CGraph := { g with functionList := ns }

/-- CGraph.append composed with Function.create: the new node stores the
given value, argument references, callable and auxiliary arguments, receives
`ID = functionCount` (Function.get_ID reads the count before append), and is
appended to `functionList` while `functionCount` is incremented. -/
def Function.create (g : CGraph) (x : Val) (fargs : List Nat) (func : Fn)
    (funcargs : List Val) : CGraph :=
  { g with
    functionCount := g.functionCount + 1
    functionList := g.functionList ++
      [{ func := func, args := fargs, funcargs := funcargs,
         ID := g.functionCount, x := x, xbar := none }] }

/-- Function.__init__ with a non-None value: `cls.create(x, (self,), cls.Id, self)`.
The new node's argument tuple contains the node itself, so in the index model
its single argument is its own position in the node list. -/
def Function.mkLeaf (g : CGraph) (x : Val) : CGraph :=
  Function.create g x [g.functionList.length] FId []

/-- One step of graph construction: either a leaf variable (Function(x)) or a
recorded operation node (Function.create reached via Function.push_forward
with Fout = None). -/
inductive BuildStep where
  | leaf (x : Val)
  | node (x : Val) (fargs : List Nat) (func : Fn) (funcargs : List Val)

/-- Replay a list of construction steps against a graph. -/
def build : CGraph → List BuildStep → CGraph
  | g, [] => g
  | g, .leaf x :: rest => build (Function.mkLeaf g x) rest
  | g, .node x fargs func funcargs :: rest =>
      build (Function.create g x fargs func funcargs) rest

/-- A construction trace is valid when every operation node only references
nodes that already exist, which is forced in Python because arguments are
object references to previously created Function instances.  The number
tracks the current length of the node list. -/
def ValidSteps : Nat → List BuildStep → Prop
  | _, [] => True
  | n, .leaf _ :: rest => ValidSteps (n + 1) rest
  | n, .node _ fargs _ _ :: rest => (∀ j ∈ fargs, j < n) ∧ ValidSteps (n + 1) rest

/-- List comprehension `[fa.x for fa in Fargs]` over argument references,
failing on a dangling reference (unrepresentable in Python). -/
def lookupVals (ns : List Node) : List Nat → Option (List Val)
  | [] => some []
  | j :: js =>
    match ns[j]? with
    | none => none
    | some f =>
      match lookupVals ns js with
      | none => none
      | some vs => some (f.x :: vs)

/-- A single mutation step acting at one node index. -/
def StepFn : Type := List Node → Nat → Except PyErr (List Node)

/-- Run mutation steps at a list of node indices, stopping at the first
raised exception and reporting the node-list state at that moment. -/
def runAll (step : StepFn) : List Node → List Nat → Except (PyErr × List Node) (List Node)
  | ns, [] => .ok ns
  | ns, k :: ks =>
    match step ns k with
    | .error e => .error (e, ns)
    | .ok ns' => runAll step ns' ks

/-- Body of the forward traversal loop of CGraph.push_forward:
`f.__class__.push_forward(f.func, f.args, Fout = f, funcargs = f.funcargs)`
with Fout set, i.e. recompute `out = func(*( [fa.x for fa in Fargs] + list(funcargs) ))`
and store it in `Fout.x`. -/
def forwardStep : StepFn := fun ns k =>
  match ns[k]? with
  | none => .error .badRef
  | some f =>
    match lookupVals ns f.args with
    | none => .error .badRef
    | some argvals => .ok (ns.set k { f with x := f.func (argvals ++ f.funcargs) })

/-- First loop of CGraph.push_forward:
`for nf,f in enumerate(self.independentFunctionList): f.args[0].x = x_list[nf]`.
Python evaluates the right-hand side `x_list[nf]` first (IndexError when the
supplied list is too short), then resolves `f.args[0]` (IndexError on an empty
argument tuple), then assigns the value in place. -/
def assignInputs : List Node → List Nat → Nat → List Val → Except (PyErr × List Node) (List Node)
  | ns, [], _, _ => .ok ns
  | ns, i :: rest, nf, x_list =>
    match x_list[nf]? with
    | none => .error (.indexError "list index out of range", ns)
    | some v =>
      match ns[i]? with
      | none => .error (.badRef, ns)
      | some f =>
        match f.args.head? with
        | none => .error (.indexError "tuple index out of range", ns)
        | some j =>
          match ns[j]? with
          | none => .error (.badRef, ns)
          | some t => assignInputs (ns.set j { t with x := v }) rest (nf + 1) x_list

/-- CGraph.push_forward(x_list): install the new input values through the
independent nodes' first argument references, then walk the whole node list
in order, recomputing every node's value. -/
def CGraph.push_forward (g : CGraph) (x_list : List Val) : Except (PyErr × CGraph) CGraph :=
  match assignInputs g.functionList g.independentFunctionList 0 x_list with
  | .error (e, ns) => .error (e, withNodes g ns)
  | .ok ns1 =>
    match runAll forwardStep ns1 (List.range ns1.length) with
    | .error (e, ns) => .error (e, withNodes g ns)
    | .ok ns2 => .ok (withNodes g ns2)

/-- Val.zeros_like as the traced objects expose it: array-like objects return
an all-zero object of the same shape; Python floats and tuples have no
`zeros_like` attribute. -/
def Val.zeros_like : Val → Option Val
  | .scalar _ => none
  | .arr xs => some (.arr (xs.map fun _ => 0))
  | .tup _ => none

/-- Function.xbar_from_x: scalar values get the float `0.`, tuple values get a
tuple of `zeros_like` of their elements, and any other value gets
`self.x.zeros_like()`.  `none` models the AttributeError raised when an
element has no `zeros_like`. -/
def xbar_from_x : Val → Option Val
  | .scalar _ => some (.scalar 0)
  | .tup ts => (ts.mapM Val.zeros_like).map Val.tup
  | .arr xs => (Val.arr xs).zeros_like

/-- Body of the adjoint-clearing loop of CGraph.pullback:
`for f in self.functionList: f.xbar_from_x()`. -/
def initStep : StepFn := fun ns k =>
  match ns[k]? with
  | none => .error .badRef
  | some f =>
    match xbar_from_x f.x with
    | none => .error (.attributeError "object has no attribute zeros_like")
    | some z => .ok (ns.set k { f with xbar := some z })

/-- In-place item assignment `b[...] = v`: floats and tuples do not support
item assignment (TypeError); array-like objects broadcast a scalar or copy an
array of matching length. -/
def setitemEllipsis (b v : Val) : Except PyErr Val :=
  match b with
  | .scalar _ => .error (.typeError "float object does not support item assignment")
  | .tup _ => .error (.typeError "tuple object does not support item assignment")
  | .arr xs =>
    match v with
    | .scalar q => .ok (.arr (xs.map fun _ => q))
    | .arr ys =>
      if ys.length = xs.length then .ok (.arr ys)
      else .error (.valueError "could not broadcast input array")
    | .tup _ => .error (.valueError "setting an array element with a sequence")

/-- Output-seeding loop of CGraph.pullback:
`for nf,f in enumerate(self.dependentFunctionList): f.xbar[...] = xbar_list[nf]`.
The right-hand side `xbar_list[nf]` is evaluated first; assigning through `[...]`
into the `NotSet` sentinel raises a TypeError just as into a float or a tuple. -/
def seedOutputs : List Node → List Nat → Nat → List Val → Except (PyErr × List Node) (List Node)
  | ns, [], _, _ => .ok ns
  | ns, d :: rest, nf, xbar_list =>
    match xbar_list[nf]? with
    | none => .error (.indexError "list index out of range", ns)
    | some v =>
      match ns[d]? with
      | none => .error (.badRef, ns)
      | some f =>
        match f.xbar with
        | none => .error (.typeError "NotSet object does not support item assignment", ns)
        | some b =>
          match setitemEllipsis b v with
          | .error e => .error (e, ns)
          | .ok b' => seedOutputs (ns.set d { f with xbar := some b' }) rest (nf + 1) xbar_list

/-- Signature of a reverse-mode evaluator registry, receiving the node's
adjoint, its arguments' values, its value, its arguments' current adjoints and
the auxiliary arguments, and producing the updated argument adjoints. -/
def PbEnv : Type :=
  Option Val → List Val → Val → List (Option Val) → List Val → List Val

/-- Write the adjoints produced by a pullback evaluator back into the
argument nodes' `xbar` storage (the `out=` tuple of the evaluator call). -/
def writeXbars : List Node → List Nat → List Val → List Node
  | ns, j :: js, v :: vs =>
    (match ns[j]? with
     | none => writeXbars ns js vs
     | some t => writeXbars (ns.set j { t with xbar := some v }) js vs)
  | ns, _, _ => ns

/-- Modelled from the spec: the per-operation pullback evaluators
`pb_<func_name>` that Function.pullback resolves inside the external
`algopy.utp.utpm` module are not part of the sources; §4.3 and §6 of the spec
state that such an evaluator receives
`(node.adjoint, [a.value for a in arguments], node.value, out=[a.adjoint for a in arguments], auxiliary_args)`
and updates the argument adjoints held in the `out` storage in place.  The
registry is abstracted as a `PbEnv` parameter and its output is written back
into the argument nodes' adjoint fields, which is the only state the
evaluator may touch. -/
def pullbackStep (pb : PbEnv) : StepFn := fun ns k =>
  match ns[k]? with
  | none => .error .badRef
  | some f =>
    match f.args.mapM (fun j => ns[j]?) with
    | none => .error .badRef
    | some argnodes =>
      .ok (writeXbars ns f.args
        (pb f.xbar (argnodes.map (·.x)) f.x (argnodes.map (·.xbar)) f.funcargs))

/-- Exception raised by CGraph.pullback when no dependent variables were
declared. -/
def noDependentMsg : PyErr :=
  .exception "You forgot to specify which variables are dependent!"

/-- Stages of CGraph.pullback after the adjoint-clearing loop: seed the
dependent nodes' adjoints, then walk the node list in reverse
(`self.functionList[::-1]`) applying each node's pullback evaluator. -/
def pullbackAfterInit (g : CGraph) (pb : PbEnv) (xbar_list : List Val)
    (ns1 : List Node) : Except (PyErr × CGraph) CGraph :=
  match seedOutputs ns1 g.dependentFunctionList 0 xbar_list with
  | .error (e, ns) => .error (e, withNodes g ns)
  | .ok ns2 =>
    match runAll (pullbackStep pb) ns2 (List.range ns2.length).reverse with
    | .error (e, ns) => .error (e, withNodes g ns)
    | .ok ns3 => .ok (withNodes g ns3)

/-- CGraph.pullback(xbar_list): raise unless dependent variables are declared,
clear every node's adjoint via xbar_from_x, seed the dependent adjoints, then
propagate in reverse creation order. -/
def CGraph.pullback (g : CGraph) (pb : PbEnv) (xbar_list : List Val) :
    Except (PyErr × CGraph) CGraph :=
  match g.dependentFunctionList with
  | [] => .error (noDependentMsg, g)
  | _ :: _ =>
    match runAll initStep g.functionList (List.range g.functionList.length) with
    | .error (e, ns) => .error (e, withNodes g ns)
    | .ok ns1 => pullbackAfterInit g pb xbar_list ns1

/-! The nthderiv basecase decorator (src/algopy/nthderiv/nthderiv.py).
`basecase(fn_zeroth_deriv, ...)` wraps a derivative formula `f` into
`wrapped_f`, which pops the keyword arguments `out` and `n` (default 0),
raises for negative `n`, dispatches to `f` for nonzero `n`, and otherwise
calls the zeroth-derivative base function, forwarding `out` when given. -/

/-- The function `wrapped_f` produced by the basecase decorator, with the
zeroth-derivative base function and the wrapped derivative formula as
explicit parameters. -/
def wrapped_f (fn_zeroth_deriv : List Val → Option Val → Val)
    (f : List Val → Option Val → Int → Val)
    (args : List Val) (out : Option Val) (n : Int) : Except PyErr Val :=
  if n < 0 then .error (.valueError "n must be a nonnegative integer")
  else if n ≠ 0 then .ok (f args out n)
  else
    match out with
    | none => .ok (fn_zeroth_deriv args none)
    | some o => .ok (fn_zeroth_deriv args (some o))

/-! Auxiliary predicates and concrete instances used by the verification. -/

/-- The immutable part of a node: everything except `x` and `xbar`. -/
def structOf (f : Node) : Fn × List Nat × List Val × Nat :=
  (f.func, f.args, f.funcargs, f.ID)

/-- Two node lists have the same length and pointwise identical structural
fields; the nodes may differ in `x` and `xbar` only. -/
def nodesSameStructure (a b : List Node) : Prop :=
  a.length = b.length ∧ ∀ k : Nat, (a[k]?).map structOf = (b[k]?).map structOf

/-- A mutation step preserves node structure whenever it succeeds. -/
def StepPreserves (step : StepFn) : Prop :=
  ∀ ns k ns', step ns k = .ok ns' → nodesSameStructure ns ns'

/-- The node-list state of a run outcome, also on the error branch. -/
def errNodes : Except (PyErr × List Node) (List Node) → List Node
  | .ok ns => ns
  | .error (_, ns) => ns

/-- Topological well-formedness as established by graph construction: every
node references only strictly earlier nodes, except a leaf variable, whose
single argument is the node itself and whose operation is the identity. -/
def WFnodes (ns : List Node) : Prop :=
  ∀ (k : Nat) (f : Node), ns[k]? = some f →
    (∀ j ∈ f.args, j < k) ∨ (f.args = [k] ∧ f.func = FId)

/-- A step only mutates the node it is applied to. -/
def StepLocal (step : StepFn) : Prop :=
  ∀ ns k ns', step ns k = .ok ns' → ∀ m, m ≠ k → ns'[m]? = ns[m]?

/-- Node `i` is a leaf variable: its argument tuple is the one-element tuple
containing the node itself and its operation is the identity. -/
def isLeafAt (ns : List Node) (i : Nat) : Prop :=
  ∃ f, ns[i]? = some f ∧ f.args = [i] ∧ f.func = FId

/-- Graph-level frame condition: counts, designated input and output lists
and every node's structural fields agree; only node values and adjoints may
differ. -/
def CGraph.sameStructure (g g' : CGraph) : Prop :=
  g'.functionCount = g.functionCount ∧
  g'.independentFunctionList = g.independentFunctionList ∧
  g'.dependentFunctionList = g.dependentFunctionList ∧
  nodesSameStructure g.functionList g'.functionList

/-- The graph state a replay call leaves behind, also when it raises. -/
def outState : Except (PyErr × CGraph) CGraph → CGraph
  | .ok g => g
  | .error (_, g) => g

/-- Invariant maintained by graph construction from an empty graph: the count
equals the node-list length, each node's ID is its position, and arguments
are either all strictly earlier or the self-reference of a leaf. -/
def GraphInv (g : CGraph) : Prop :=
  g.functionCount = g.functionList.length ∧
  ∀ (k : Nat) (f : Node), g.functionList[k]? = some f →
    f.ID = k ∧ ((∀ j ∈ f.args, j < k) ∨ (f.args = [k] ∧ f.func = FId))

/-- Scalar addition as a traced binary operation (`float.__add__`). -/
def FAdd : Fn := fun l =>
  match l with
  | [Val.scalar a, Val.scalar b] => Val.scalar (a + b)
  | _ => Val.scalar 0

/-- Scalar multiplication as a traced binary operation (`float.__mul__`). -/
def FMul : Fn := fun l =>
  match l with
  | [Val.scalar a, Val.scalar b] => Val.scalar (a * b)
  | _ => Val.scalar 0

/-- A pullback registry that contributes nothing, usable where the
propagation result is irrelevant. -/
def pbZero : PbEnv := fun _ _ _ _ _ => []

/-- The spec's example graph y = x1*(x2+x3) at (x1,x2,x3) = (2,3,4):
three leaf variables, one addition node and one multiplication node. -/
def gEx : CGraph :=
  { build CGraph.empty
      [.leaf (Val.scalar 2), .leaf (Val.scalar 3), .leaf (Val.scalar 4),
       .node (Val.scalar 7) [1, 2] FAdd [],
       .node (Val.scalar 14) [0, 3] FMul []] with
    independentFunctionList := [0, 1, 2]
    dependentFunctionList := [4] }

/-- Replacement inputs for the example graph. -/
def xlEx : List Val := [Val.scalar 5, Val.scalar 1, Val.scalar 1]

/-- The example graph after a successful push_forward with `xlEx`. -/
def gEx' : CGraph :=
  match gEx.push_forward xlEx with
  | .ok g => g
  | .error _ => gEx

/-- A one-leaf graph with a single declared independent variable. -/
def gOneLeaf : CGraph :=
  { Function.mkLeaf CGraph.empty (Val.scalar 1) with independentFunctionList := [0] }

/-- A two-leaf graph with two declared independent variables. -/
def gTwoLeaf : CGraph :=
  { build CGraph.empty [.leaf (Val.scalar 1), .leaf (Val.scalar 2)] with
    independentFunctionList := [0, 1] }

/-- A one-leaf graph whose scalar-valued node is also the declared dependent
variable. -/
def gScalarDep : CGraph :=
  { Function.mkLeaf CGraph.empty (Val.scalar 5) with
    independentFunctionList := [0]
    dependentFunctionList := [0] }

/-- The node list of `gScalarDep` after the adjoint-clearing loop. -/
def nsScalarInit : List Node :=
  errNodes (runAll initStep gScalarDep.functionList
    (List.range gScalarDep.functionList.length))

/-- A three-step construction trace: two leaf variables and one addition
node consuming both. -/
def stepsC2 : List BuildStep :=
  [.leaf (Val.scalar 2), .leaf (Val.scalar 3), .node (Val.scalar 5) [0, 1] FAdd []]


/-! Structural framing: neither replay direction may touch a node's
operation, argument references, auxiliary arguments or ID, nor the shape of
the graph itself. -/

theorem nodesSameStructure_refl (a : List Node) : nodesSameStructure a a :=
  ⟨rfl, fun _ => rfl⟩

theorem nodesSameStructure_trans {a b c : List Node}
    (h1 : nodesSameStructure a b) (h2 : nodesSameStructure b c) :
    nodesSameStructure a c :=
  ⟨h1.1.trans h2.1, fun k => (h1.2 k).trans (h2.2 k)⟩

theorem nodesSameStructure_set {ns : List Node} {k : Nat} {f f' : Node}
    (hk : ns[k]? = some f) (hs : structOf f' = structOf f) :
    nodesSameStructure ns (ns.set k f') := by
  have hlt : k < ns.length := (List.getElem?_eq_some.mp hk).1
  refine ⟨(List.length_set ns k f').symm, fun m => ?_⟩
  by_cases hm : k = m
  · subst hm
    rw [List.getElem?_set_self hlt, hk]
    simp [hs]
  · rw [List.getElem?_set_ne hm]

theorem runAll_preserves {step : StepFn} (hp : StepPreserves step) :
    ∀ (ks : List Nat) (ns : List Node),
      nodesSameStructure ns (errNodes (runAll step ns ks))
  | [], ns => nodesSameStructure_refl ns
  | k :: ks, ns => by
    unfold runAll
    cases hstep : step ns k with
    | error e => exact nodesSameStructure_refl ns
    | ok ns' =>
      exact nodesSameStructure_trans (hp ns k ns' hstep) (runAll_preserves hp ks ns')

theorem forwardStep_preserves : StepPreserves forwardStep := by
  intro ns k ns' h
  unfold forwardStep at h
  split at h
  · exact absurd h (by simp)
  next f hk =>
    split at h
    · exact absurd h (by simp)
    next argvals hl =>
      cases h
      exact nodesSameStructure_set hk rfl

theorem initStep_preserves : StepPreserves initStep := by
  intro ns k ns' h
  unfold initStep at h
  split at h
  · exact absurd h (by simp)
  next f hk =>
    split at h
    · exact absurd h (by simp)
    next z hz =>
      cases h
      exact nodesSameStructure_set hk rfl

theorem writeXbars_preserves :
    ∀ (js : List Nat) (vs : List Val) (ns : List Node),
      nodesSameStructure ns (writeXbars ns js vs)
  | [], _, ns => nodesSameStructure_refl ns
  | _ :: _, [], ns => nodesSameStructure_refl ns
  | j :: js, v :: vs, ns => by
    unfold writeXbars
    split
    · exact writeXbars_preserves js vs ns
    next t hj =>
      refine nodesSameStructure_trans ?_ (writeXbars_preserves js vs _)
      exact nodesSameStructure_set hj rfl

theorem pullbackStep_preserves (pb : PbEnv) : StepPreserves (pullbackStep pb) := by
  intro ns k ns' h
  unfold pullbackStep at h
  split at h
  · exact absurd h (by simp)
  next f hk =>
    split at h
    · exact absurd h (by simp)
    next argnodes hl =>
      cases h
      exact writeXbars_preserves _ _ _

theorem assignInputs_preserves :
    ∀ (indep : List Nat) (ns : List Node) (nf : Nat) (x_list : List Val),
      nodesSameStructure ns (errNodes (assignInputs ns indep nf x_list))
  | [], ns, _, _ => nodesSameStructure_refl ns
  | i :: rest, ns, nf, x_list => by
    unfold assignInputs
    split
    · exact nodesSameStructure_refl ns
    split
    · exact nodesSameStructure_refl ns
    split
    · exact nodesSameStructure_refl ns
    split
    · exact nodesSameStructure_refl ns
    next t hj =>
      refine nodesSameStructure_trans ?_ (assignInputs_preserves rest _ (nf + 1) x_list)
      exact nodesSameStructure_set hj rfl

theorem seedOutputs_preserves :
    ∀ (deps : List Nat) (ns : List Node) (nf : Nat) (xbar_list : List Val),
      nodesSameStructure ns (errNodes (seedOutputs ns deps nf xbar_list))
  | [], ns, _, _ => nodesSameStructure_refl ns
  | d :: rest, ns, nf, xbar_list => by
    unfold seedOutputs
    split
    · exact nodesSameStructure_refl ns
    split
    · exact nodesSameStructure_refl ns
    next f hd =>
      split
      · exact nodesSameStructure_refl ns
      split
      · exact nodesSameStructure_refl ns
      next b' hb =>
        refine nodesSameStructure_trans ?_ (seedOutputs_preserves rest _ (nf + 1) xbar_list)
        exact nodesSameStructure_set hd rfl

theorem structOf_eq_iff {a b : Node} :
    structOf a = structOf b ↔
      a.func = b.func ∧ a.args = b.args ∧ a.funcargs = b.funcargs ∧ a.ID = b.ID := by
  simp [structOf, Prod.ext_iff]

theorem sameStructure_getElem {ns ns' : List Node} (h : nodesSameStructure ns ns')
    {k : Nat} {f' : Node} (hk : ns'[k]? = some f') :
    ∃ f, ns[k]? = some f ∧ f.func = f'.func ∧ f.args = f'.args ∧
      f.funcargs = f'.funcargs ∧ f.ID = f'.ID := by
  have hmap := h.2 k
  rw [hk] at hmap
  cases hns : ns[k]? with
  | none => rw [hns] at hmap; exact absurd hmap (by simp)
  | some f =>
    rw [hns] at hmap
    simp only [Option.map_some'] at hmap
    obtain ⟨h1, h2, h3, h4⟩ := structOf_eq_iff.mp (Option.some.inj hmap)
    exact ⟨f, rfl, h1, h2, h3, h4⟩

theorem WFnodes_of_sameStructure {ns ns' : List Node}
    (h : nodesSameStructure ns ns') (hwf : WFnodes ns) : WFnodes ns' := by
  intro k f' hk
  obtain ⟨f, hns, hfunc, hargs, -, -⟩ := sameStructure_getElem h hk
  rcases hwf k f hns with hlt | ⟨ha, hf⟩
  · left; rw [← hargs]; exact hlt
  · right; exact ⟨hargs ▸ ha, hfunc ▸ hf⟩

theorem forwardStep_local : StepLocal forwardStep := by
  intro ns k ns' h m hm
  unfold forwardStep at h
  split at h
  · exact absurd h (by simp)
  split at h
  · exact absurd h (by simp)
  cases h
  exact List.getElem?_set_ne fun hh => hm hh.symm

theorem initStep_local : StepLocal initStep := by
  intro ns k ns' h m hm
  unfold initStep at h
  split at h
  · exact absurd h (by simp)
  split at h
  · exact absurd h (by simp)
  cases h
  exact List.getElem?_set_ne fun hh => hm hh.symm

theorem runAll_local {step : StepFn} (hloc : StepLocal step) :
    ∀ (ks : List Nat) (ns ns' : List Node),
      runAll step ns ks = .ok ns' → ∀ m, m ∉ ks → ns'[m]? = ns[m]?
  | [], ns, ns', h, m, _ => by
    unfold runAll at h; cases h; rfl
  | k :: ks, ns, ns', h, m, hm => by
    rw [List.mem_cons] at hm
    push_neg at hm
    unfold runAll at h
    split at h
    · exact absurd h (by simp)
    next ns1 hstep =>
      exact (runAll_local hloc ks ns1 ns' h m hm.2).trans (hloc ns k ns1 hstep m hm.1)

theorem runAll_cons (step : StepFn) (ns : List Node) (k : Nat) (ks : List Nat) :
    runAll step ns (k :: ks) =
      match step ns k with
      | .error e => .error (e, ns)
      | .ok ns' => runAll step ns' ks := rfl

theorem runAll_append (step : StepFn) :
    ∀ (l₁ l₂ : List Nat) (ns : List Node),
      runAll step ns (l₁ ++ l₂) =
        match runAll step ns l₁ with
        | .error e => .error e
        | .ok m => runAll step m l₂
  | [], _, _ => rfl
  | k :: l₁, l₂, ns => by
    rw [List.cons_append, runAll_cons, runAll_cons]
    cases step ns k with
    | error e => rfl
    | ok ns' => exact runAll_append step l₁ l₂ ns'

theorem lookupVals_congr {ns ns' : List Node} :
    ∀ js : List Nat, (∀ j ∈ js, ns'[j]? = ns[j]?) → lookupVals ns' js = lookupVals ns js
  | [], _ => rfl
  | j :: js, h => by
    unfold lookupVals
    rw [h j (List.mem_cons_self j js),
      lookupVals_congr js fun a ha => h a (List.mem_cons_of_mem _ ha)]

theorem lookupVals_single {ns : List Node} {j : Nat} {f : Node} (h : ns[j]? = some f) :
    lookupVals ns [j] = some [f.x] := by
  unfold lookupVals
  rw [h]
  rfl

/-- Core of forward replay correctness: when the ascending pass over a
topologically well-formed node list succeeds, every node's value equals its
operation applied to the final values of its argument nodes and to its
auxiliary arguments. -/
theorem forward_consistency {ns ns' : List Node} (hwf : WFnodes ns)
    (h : runAll forwardStep ns (List.range ns.length) = .ok ns') :
    ∀ (k : Nat) (f : Node), ns'[k]? = some f →
      ∃ argvals, lookupVals ns' f.args = some argvals ∧
        f.x = f.func (argvals ++ f.funcargs) := by
  intro k f hk
  have hlen : nodesSameStructure ns ns' := by
    have hp := runAll_preserves forwardStep_preserves (List.range ns.length) ns
    rw [h] at hp
    exact hp
  have hkn : k < ns.length := by
    have hk' : k < ns'.length := (List.getElem?_eq_some.mp hk).1
    rw [hlen.1]; exact hk'
  have hsplit : List.range ns.length =
      List.range (k + 1) ++ (List.range (ns.length - (k + 1))).map ((k + 1) + ·) := by
    rw [← List.range_add]
    congr 1
    omega
  rw [hsplit, runAll_append] at h
  rcases h1 : runAll forwardStep ns (List.range (k + 1)) with e | mid
  · rw [h1] at h; exact absurd h (by simp)
  rw [h1] at h
  rw [List.range_succ, runAll_append] at h1
  rcases h2 : runAll forwardStep ns (List.range k) with e | pre
  · rw [h2] at h1; exact absurd h1 (by simp)
  rw [h2] at h1
  have hstep : forwardStep pre k = .ok mid := by
    unfold runAll at h1
    split at h1
    · exact absurd h1 (by simp)
    next ns1 hs =>
      unfold runAll at h1
      cases h1
      exact hs
  have hpre : nodesSameStructure ns pre := by
    have hp := runAll_preserves forwardStep_preserves (List.range k) ns
    rw [h2] at hp
    exact hp
  have hwfpre : WFnodes pre := WFnodes_of_sameStructure hpre hwf
  have hkpre : k < pre.length := by rw [← hpre.1]; exact hkn
  have hrest : ∀ m, m ≤ k → ns'[m]? = mid[m]? := by
    intro m hm
    refine runAll_local forwardStep_local _ mid ns' h m ?_
    intro hmem
    rw [List.mem_map] at hmem
    obtain ⟨i, -, hi⟩ := hmem
    omega
  unfold forwardStep at hstep
  split at hstep
  · exact absurd hstep (by simp)
  next f0 hk0 =>
    split at hstep
    · exact absurd hstep (by simp)
    next argvals0 hl0 =>
      cases hstep
      have hmidk : (pre.set k { f0 with x := f0.func (argvals0 ++ f0.funcargs) })[k]? =
          some { f0 with x := f0.func (argvals0 ++ f0.funcargs) } :=
        List.getElem?_set_self hkpre
      have hf : f = { f0 with x := f0.func (argvals0 ++ f0.funcargs) } := by
        have := (hrest k le_rfl).symm.trans hk
        rw [hmidk] at this
        exact (Option.some.inj this).symm
      subst hf
      rcases hwfpre k f0 hk0 with hlt | ⟨hargs, hfunc⟩
      · refine ⟨argvals0, ?_, rfl⟩
        show lookupVals ns' f0.args = some argvals0
        rw [← hl0]
        refine lookupVals_congr f0.args fun j hj => ?_
        have hjk : j < k := hlt j hj
        have e1 : ns'[j]? = (pre.set k { f0 with x := f0.func (argvals0 ++ f0.funcargs) })[j]? :=
          hrest j (le_of_lt hjk)
        rw [e1, List.getElem?_set_ne (Nat.ne_of_gt hjk)]
      · have hargs' : ({ f0 with x := f0.func (argvals0 ++ f0.funcargs) } : Node).args = [k] := hargs
        refine ⟨[f0.func (argvals0 ++ f0.funcargs)], ?_, ?_⟩
        · rw [hargs']
          exact lookupVals_single hk
        · show f0.func (argvals0 ++ f0.funcargs) =
            f0.func ([f0.func (argvals0 ++ f0.funcargs)] ++ f0.funcargs)
          rw [hfunc]
          rfl

theorem isLeafAt_of_sameStructure {ns ns' : List Node}
    (h : nodesSameStructure ns ns') {i : Nat} (hl : isLeafAt ns i) : isLeafAt ns' i := by
  obtain ⟨f, hf, hargs, hfunc⟩ := hl
  have hmap := h.2 i
  rw [hf] at hmap
  cases hns : ns'[i]? with
  | none => rw [hns] at hmap; exact absurd hmap (by simp)
  | some f' =>
    rw [hns] at hmap
    simp only [Option.map_some'] at hmap
    obtain ⟨h1, h2, -, -⟩ := structOf_eq_iff.mp (Option.some.inj hmap)
    exact ⟨f', hns, h2 ▸ hargs, h1 ▸ hfunc⟩

theorem isLeafAt_set_x {ns : List Node} {i i' : Nat} {f : Node} (hf : ns[i]? = some f)
    (v : Val) (hl : isLeafAt ns i') : isLeafAt (ns.set i { f with x := v }) i' := by
  refine isLeafAt_of_sameStructure ?_ hl
  exact nodesSameStructure_set hf rfl

theorem assignInputs_cons (ns : List Node) (i : Nat) (rest : List Nat) (nf : Nat)
    (x_list : List Val) :
    assignInputs ns (i :: rest) nf x_list =
      match x_list[nf]? with
      | none => .error (.indexError "list index out of range", ns)
      | some v =>
        match ns[i]? with
        | none => .error (.badRef, ns)
        | some f =>
          match f.args.head? with
          | none => .error (.indexError "tuple index out of range", ns)
          | some j =>
            match ns[j]? with
            | none => .error (.badRef, ns)
            | some t => assignInputs (ns.set j { t with x := v }) rest (nf + 1) x_list :=
  rfl

theorem assignInputs_cons_noval {ns : List Node} {i : Nat} {rest : List Nat} {nf : Nat}
    {x_list : List Val} (hv : x_list[nf]? = none) :
    assignInputs ns (i :: rest) nf x_list =
      .error (.indexError "list index out of range", ns) := by
  rw [assignInputs_cons]
  simp only [hv]

theorem assignInputs_cons_leaf {ns : List Node} {i : Nat} {f : Node}
    (hf : ns[i]? = some f) (hargs : f.args = [i]) {nf : Nat} {x_list : List Val} {v : Val}
    (hv : x_list[nf]? = some v) (rest : List Nat) :
    assignInputs ns (i :: rest) nf x_list =
      assignInputs (ns.set i { f with x := v }) rest (nf + 1) x_list := by
  rw [assignInputs_cons]
  simp only [hv, hf, hargs, List.head?_cons]

theorem assignInputs_local :
    ∀ (indep : List Nat) (ns : List Node) (nf : Nat) (x_list : List Val) (m : Nat),
      (∀ i ∈ indep, isLeafAt ns i) → m ∉ indep →
      (errNodes (assignInputs ns indep nf x_list))[m]? = ns[m]?
  | [], _, _, _, _, _, _ => rfl
  | i :: rest, ns, nf, x_list, m, hleaf, hm => by
    rw [List.mem_cons] at hm
    push_neg at hm
    obtain ⟨f, hf, hargs, hfunc⟩ := hleaf i (List.mem_cons_self i rest)
    cases hv : x_list[nf]? with
    | none => rw [assignInputs_cons_noval hv]; rfl
    | some v =>
      rw [assignInputs_cons_leaf hf hargs hv rest]
      have hleaf' : ∀ i' ∈ rest, isLeafAt (ns.set i { f with x := v }) i' := fun i' hi' =>
        isLeafAt_set_x hf v (hleaf i' (List.mem_cons_of_mem _ hi'))
      rw [assignInputs_local rest _ (nf + 1) x_list m hleaf' hm.2]
      exact List.getElem?_set_ne fun hh => hm.1 hh.symm

theorem assignInputs_persist :
    ∀ (indep : List Nat) (ns : List Node) (nf : Nat) (x_list : List Val),
      (∀ i ∈ indep, isLeafAt ns i) → indep.Nodup →
      ∀ (m i : Nat) (v : Val), indep[m]? = some i → x_list[nf + m]? = some v →
        ∃ f, (errNodes (assignInputs ns indep nf x_list))[i]? = some f ∧ f.x = v
  | [], _, _, _, _, _, m, _, _, him, _ => by simp at him
  | i0 :: rest, ns, nf, x_list, hleaf, hnd, m, i, v, him, hv => by
    obtain ⟨f, hf, hargs, hfunc⟩ := hleaf i0 (List.mem_cons_self i0 rest)
    rw [List.nodup_cons] at hnd
    have hin : i0 < ns.length := (List.getElem?_eq_some.mp hf).1
    cases m with
    | zero =>
      have hi : i0 = i := by simpa using him
      subst hi
      have hv0 : x_list[nf]? = some v := by simpa using hv
      rw [assignInputs_cons_leaf hf hargs hv0 rest]
      have hleaf' : ∀ i' ∈ rest, isLeafAt (ns.set i0 { f with x := v }) i' := fun i' hi' =>
        isLeafAt_set_x hf v (hleaf i' (List.mem_cons_of_mem _ hi'))
      rw [assignInputs_local rest _ (nf + 1) x_list i0 hleaf' hnd.1]
      exact ⟨{ f with x := v }, List.getElem?_set_self hin, rfl⟩
    | succ m' =>
      have him' : rest[m']? = some i := by simpa using him
      have hv' : x_list[(nf + 1) + m']? = some v := by
        have harith : nf + (m' + 1) = (nf + 1) + m' := by omega
        rwa [harith] at hv
      have hlen : nf + (m' + 1) < x_list.length := (List.getElem?_eq_some.mp hv).1
      cases hv0 : x_list[nf]? with
      | none =>
        rw [List.getElem?_eq_none_iff] at hv0
        omega
      | some v0 =>
        rw [assignInputs_cons_leaf hf hargs hv0 rest]
        have hleaf' : ∀ i' ∈ rest, isLeafAt (ns.set i0 { f with x := v0 }) i' := fun i' hi' =>
          isLeafAt_set_x hf v0 (hleaf i' (List.mem_cons_of_mem _ hi'))
        exact assignInputs_persist rest _ (nf + 1) x_list hleaf' hnd.2 m' i v him' hv'

theorem assignInputs_deficit :
    ∀ (indep : List Nat) (ns : List Node) (nf : Nat) (x_list : List Val),
      (∀ i ∈ indep, isLeafAt ns i) → nf ≤ x_list.length →
      x_list.length < nf + indep.length →
      ∃ ns', assignInputs ns indep nf x_list =
        .error (.indexError "list index out of range", ns')
  | [], _, nf, x_list, _, hle, hlt => by simp at hlt; omega
  | i :: rest, ns, nf, x_list, hleaf, hle, hlt => by
    cases hv : x_list[nf]? with
    | none => exact ⟨ns, assignInputs_cons_noval hv⟩
    | some v =>
      obtain ⟨f, hf, hargs, hfunc⟩ := hleaf i (List.mem_cons_self i rest)
      rw [assignInputs_cons_leaf hf hargs hv rest]
      have hnf : nf < x_list.length := (List.getElem?_eq_some.mp hv).1
      have hleaf' : ∀ i' ∈ rest, isLeafAt (ns.set i { f with x := v }) i' := fun i' hi' =>
        isLeafAt_set_x hf v (hleaf i' (List.mem_cons_of_mem _ hi'))
      refine assignInputs_deficit rest _ (nf + 1) x_list hleaf' hnf ?_
      simp only [List.length_cons] at hlt
      omega

theorem assignInputs_cons_noref {ns : List Node} {i : Nat} {rest : List Nat} {nf : Nat}
    {x_list : List Val} {v : Val} (hv : x_list[nf]? = some v) (hns : ns[i]? = none) :
    assignInputs ns (i :: rest) nf x_list = .error (.badRef, ns) := by
  rw [assignInputs_cons]
  simp only [hv, hns]

theorem assignInputs_cons_noargs {ns : List Node} {i : Nat} {rest : List Nat} {nf : Nat}
    {x_list : List Val} {v : Val} {f : Node} (hv : x_list[nf]? = some v)
    (hns : ns[i]? = some f) (hh : f.args.head? = none) :
    assignInputs ns (i :: rest) nf x_list =
      .error (.indexError "tuple index out of range", ns) := by
  rw [assignInputs_cons]
  simp only [hv, hns, hh]

theorem assignInputs_cons_dangling {ns : List Node} {i : Nat} {rest : List Nat} {nf : Nat}
    {x_list : List Val} {v : Val} {f : Node} {j : Nat} (hv : x_list[nf]? = some v)
    (hns : ns[i]? = some f) (hh : f.args.head? = some j) (hj : ns[j]? = none) :
    assignInputs ns (i :: rest) nf x_list = .error (.badRef, ns) := by
  rw [assignInputs_cons]
  simp only [hv, hns, hh, hj]

theorem assignInputs_cons_step {ns : List Node} {i : Nat} {rest : List Nat} {nf : Nat}
    {x_list : List Val} {v : Val} {f : Node} {j : Nat} {t : Node} (hv : x_list[nf]? = some v)
    (hns : ns[i]? = some f) (hh : f.args.head? = some j) (hj : ns[j]? = some t) :
    assignInputs ns (i :: rest) nf x_list =
      assignInputs (ns.set j { t with x := v }) rest (nf + 1) x_list := by
  rw [assignInputs_cons]
  simp only [hv, hns, hh, hj]

theorem assignInputs_surplus :
    ∀ (indep : List Nat) (ns : List Node) (nf : Nat) (x_list extra : List Val),
      nf + indep.length ≤ x_list.length →
      assignInputs ns indep nf (x_list ++ extra) = assignInputs ns indep nf x_list
  | [], _, _, _, _, _ => rfl
  | i :: rest, ns, nf, x_list, extra, hle => by
    have hnf : nf < x_list.length := by
      simp only [List.length_cons] at hle
      omega
    have happ : (x_list ++ extra)[nf]? = x_list[nf]? := List.getElem?_append_left hnf
    cases hv : x_list[nf]? with
    | none =>
      rw [List.getElem?_eq_none_iff] at hv
      omega
    | some v =>
      have happv : (x_list ++ extra)[nf]? = some v := by rw [happ, hv]
      cases hns : ns[i]? with
      | none => rw [assignInputs_cons_noref happv hns, assignInputs_cons_noref hv hns]
      | some f =>
        cases hh : f.args.head? with
        | none =>
          rw [assignInputs_cons_noargs happv hns hh, assignInputs_cons_noargs hv hns hh]
        | some j =>
          cases hj : ns[j]? with
          | none =>
            rw [assignInputs_cons_dangling happv hns hh hj,
              assignInputs_cons_dangling hv hns hh hj]
          | some t =>
            rw [assignInputs_cons_step happv hns hh hj, assignInputs_cons_step hv hns hh hj]
            refine assignInputs_surplus rest _ (nf + 1) x_list extra ?_
            simp only [List.length_cons] at hle
            omega

/-- A leaf variable keeps its value across the forward traversal: the
identity operation re-reads the node's own value and writes it back. -/
theorem forwardLoop_leaf_x {ns ns' : List Node}
    (h : runAll forwardStep ns (List.range ns.length) = .ok ns')
    {i : Nat} (hleaf : isLeafAt ns i) :
    (ns'[i]?).map (·.x) = (ns[i]?).map (·.x) := by
  obtain ⟨f, hf, hargs, hfunc⟩ := hleaf
  have hin : i < ns.length := (List.getElem?_eq_some.mp hf).1
  have hsplit : List.range ns.length =
      List.range (i + 1) ++ (List.range (ns.length - (i + 1))).map ((i + 1) + ·) := by
    rw [← List.range_add]
    congr 1
    omega
  rw [hsplit, runAll_append] at h
  rcases h1 : runAll forwardStep ns (List.range (i + 1)) with e | mid
  · rw [h1] at h; exact absurd h (by simp)
  rw [h1] at h
  rw [List.range_succ, runAll_append] at h1
  rcases h2 : runAll forwardStep ns (List.range i) with e | pre
  · rw [h2] at h1; exact absurd h1 (by simp)
  rw [h2] at h1
  have hstep : forwardStep pre i = .ok mid := by
    unfold runAll at h1
    split at h1
    · exact absurd h1 (by simp)
    next ns1 hs =>
      unfold runAll at h1
      cases h1
      exact hs
  have hprei : pre[i]? = ns[i]? :=
    runAll_local forwardStep_local _ _ _ h2 i (by simp [List.mem_range])
  have hresti : ns'[i]? = mid[i]? := by
    refine runAll_local forwardStep_local _ _ _ h i ?_
    intro hmem
    rw [List.mem_map] at hmem
    obtain ⟨a, -, ha⟩ := hmem
    omega
  have hprelen : pre.length = ns.length := by
    have hp := runAll_preserves forwardStep_preserves (List.range i) ns
    rw [h2] at hp
    exact hp.1.symm
  unfold forwardStep at hstep
  split at hstep
  · exact absurd hstep (by simp)
  next f0 hk0 =>
    split at hstep
    · exact absurd hstep (by simp)
    next argvals0 hl0 =>
      cases hstep
      have hf0 : f0 = f := Option.some.inj ((hk0.symm.trans hprei).trans hf)
      subst hf0
      have hargv : argvals0 = [f0.x] := by
        rw [hargs] at hl0
        rw [lookupVals_single hk0] at hl0
        exact (Option.some.inj hl0).symm
      subst hargv
      rw [hresti, List.getElem?_set_self (by rw [hprelen]; exact hin), hprei.symm.trans hk0]
      simp only [Option.map_some']
      rw [hfunc]
      rfl

theorem push_forward_assign_error {g : CGraph} {x_list : List Val} {e : PyErr}
    {ns : List Node}
    (h : assignInputs g.functionList g.independentFunctionList 0 x_list = .error (e, ns)) :
    g.push_forward x_list = .error (e, withNodes g ns) := by
  unfold CGraph.push_forward
  rw [h]

theorem push_forward_assign_ok {g : CGraph} {x_list : List Val} {ns1 : List Node}
    (h : assignInputs g.functionList g.independentFunctionList 0 x_list = .ok ns1) :
    g.push_forward x_list =
      match runAll forwardStep ns1 (List.range ns1.length) with
      | .error (e, ns) => .error (e, withNodes g ns)
      | .ok ns2 => .ok (withNodes g ns2) := by
  unfold CGraph.push_forward
  rw [h]

theorem pullback_nil {g : CGraph} {pb : PbEnv} {xbar_list : List Val}
    (h : g.dependentFunctionList = []) :
    g.pullback pb xbar_list = .error (noDependentMsg, g) := by
  unfold CGraph.pullback
  rw [h]

theorem pullback_cons {g : CGraph} {pb : PbEnv} {xbar_list : List Val} {d : Nat}
    {rest : List Nat} (h : g.dependentFunctionList = d :: rest) :
    g.pullback pb xbar_list =
      match runAll initStep g.functionList (List.range g.functionList.length) with
      | .error (e, ns) => .error (e, withNodes g ns)
      | .ok ns1 => pullbackAfterInit g pb xbar_list ns1 := by
  unfold CGraph.pullback
  rw [h]

theorem pullbackAfterInit_eq (g : CGraph) (pb : PbEnv) (xbar_list : List Val)
    (ns1 : List Node) :
    pullbackAfterInit g pb xbar_list ns1 =
      match seedOutputs ns1 g.dependentFunctionList 0 xbar_list with
      | .error (e, ns) => .error (e, withNodes g ns)
      | .ok ns2 =>
        match runAll (pullbackStep pb) ns2 (List.range ns2.length).reverse with
        | .error (e, ns) => .error (e, withNodes g ns)
        | .ok ns3 => .ok (withNodes g ns3) := rfl

theorem push_forward_ok_inv {g g' : CGraph} {x_list : List Val}
    (h : g.push_forward x_list = .ok g') :
    ∃ ns1, assignInputs g.functionList g.independentFunctionList 0 x_list = .ok ns1 ∧
      runAll forwardStep ns1 (List.range ns1.length) = .ok g'.functionList ∧
      g'.functionCount = g.functionCount ∧
      g'.independentFunctionList = g.independentFunctionList ∧
      g'.dependentFunctionList = g.dependentFunctionList := by
  unfold CGraph.push_forward at h
  split at h
  · exact absurd h (by simp)
  next ns1 hassign =>
    split at h
    · exact absurd h (by simp)
    next ns2 hrun =>
      cases h
      exact ⟨ns1, hassign, hrun, rfl, rfl, rfl⟩

theorem sameStructure_refl (g : CGraph) : g.sameStructure g :=
  ⟨rfl, rfl, rfl, nodesSameStructure_refl _⟩

theorem sameStructure_withNodes {g : CGraph} {ns : List Node}
    (h : nodesSameStructure g.functionList ns) : g.sameStructure (withNodes g ns) :=
  ⟨rfl, rfl, rfl, h⟩

/-- C6: CGraph.push_forward and CGraph.pullback never change the graph's
structure or any node's structural fields: whatever state either call leaves
behind, the node list has the same length, order and members (pointwise equal
operation, argument list, auxiliary arguments and id), the node count and the
declared independent and dependent lists are unchanged; only node values and
adjoints may change. -/
theorem replay_preserves_graph_structure (g : CGraph) (x_list : List Val) (pb : PbEnv) :
    g.sameStructure (outState (g.push_forward x_list)) ∧
    g.sameStructure (outState (g.pullback pb x_list)) := by
  constructor
  · cases hassign : assignInputs g.functionList g.independentFunctionList 0 x_list with
    | error ens =>
      obtain ⟨e, ns⟩ := ens
      rw [push_forward_assign_error hassign]
      have hp := assignInputs_preserves g.independentFunctionList g.functionList 0 x_list
      rw [hassign] at hp
      exact sameStructure_withNodes hp
    | ok ns1 =>
      rw [push_forward_assign_ok hassign]
      have hp1 := assignInputs_preserves g.independentFunctionList g.functionList 0 x_list
      rw [hassign] at hp1
      cases hrun : runAll forwardStep ns1 (List.range ns1.length) with
      | error ens =>
        obtain ⟨e, ns⟩ := ens
        have hp2 := runAll_preserves forwardStep_preserves (List.range ns1.length) ns1
        rw [hrun] at hp2
        exact sameStructure_withNodes (nodesSameStructure_trans hp1 hp2)
      | ok ns2 =>
        have hp2 := runAll_preserves forwardStep_preserves (List.range ns1.length) ns1
        rw [hrun] at hp2
        exact sameStructure_withNodes (nodesSameStructure_trans hp1 hp2)
  · cases hdep : g.dependentFunctionList with
    | nil =>
      rw [pullback_nil hdep]
      exact sameStructure_refl g
    | cons d rest =>
      rw [pullback_cons hdep]
      cases hinit : runAll initStep g.functionList (List.range g.functionList.length) with
      | error ens =>
        obtain ⟨e, ns⟩ := ens
        have hp := runAll_preserves initStep_preserves (List.range g.functionList.length)
          g.functionList
        rw [hinit] at hp
        exact sameStructure_withNodes hp
      | ok ns1 =>
        have hp1 := runAll_preserves initStep_preserves (List.range g.functionList.length)
          g.functionList
        rw [hinit] at hp1
        show g.sameStructure (outState (pullbackAfterInit g pb x_list ns1))
        rw [pullbackAfterInit_eq]
        cases hseed : seedOutputs ns1 g.dependentFunctionList 0 x_list with
        | error ens =>
          obtain ⟨e, ns⟩ := ens
          have hp2 := seedOutputs_preserves g.dependentFunctionList ns1 0 x_list
          rw [hseed] at hp2
          exact sameStructure_withNodes (nodesSameStructure_trans hp1 hp2)
        | ok ns2 =>
          have hp2 := seedOutputs_preserves g.dependentFunctionList ns1 0 x_list
          rw [hseed] at hp2
          show g.sameStructure (outState
            (match runAll (pullbackStep pb) ns2 (List.range ns2.length).reverse with
             | .error (e, ns) => .error (e, withNodes g ns)
             | .ok ns3 => .ok (withNodes g ns3)))
          cases hpb : runAll (pullbackStep pb) ns2 (List.range ns2.length).reverse with
          | error ens =>
            obtain ⟨e, ns⟩ := ens
            have hp3 := runAll_preserves (pullbackStep_preserves pb)
              (List.range ns2.length).reverse ns2
            rw [hpb] at hp3
            exact sameStructure_withNodes
              (nodesSameStructure_trans (nodesSameStructure_trans hp1 hp2) hp3)
          | ok ns3 =>
            have hp3 := runAll_preserves (pullbackStep_preserves pb)
              (List.range ns2.length).reverse ns2
            rw [hpb] at hp3
            exact sameStructure_withNodes
              (nodesSameStructure_trans (nodesSameStructure_trans hp1 hp2) hp3)

/-- C1: after CGraph.push_forward(x_list) completes without raising, every
node's value equals its recorded operation applied to the current values of
its argument nodes and its auxiliary arguments; and, for leaf Id nodes
declared independent (with distinct entries), the value is the newly assigned
input value. -/
theorem push_forward_forward_consistency (g g' : CGraph) (x_list : List Val)
    (hwf : WFnodes g.functionList)
    (h : g.push_forward x_list = .ok g') :
    (∀ (k : Nat) (f : Node), g'.functionList[k]? = some f →
      ∃ argvals, lookupVals g'.functionList f.args = some argvals ∧
        f.x = f.func (argvals ++ f.funcargs)) ∧
    (g.independentFunctionList.Nodup →
      (∀ i ∈ g.independentFunctionList, isLeafAt g.functionList i) →
      ∀ (nf i : Nat) (v : Val), g.independentFunctionList[nf]? = some i →
        x_list[nf]? = some v →
        ∃ f, g'.functionList[i]? = some f ∧ f.x = v) := by
  obtain ⟨ns1, hassign, hrun, -, -, -⟩ := push_forward_ok_inv h
  have hp1 : nodesSameStructure g.functionList ns1 := by
    have hp := assignInputs_preserves g.independentFunctionList g.functionList 0 x_list
    rw [hassign] at hp
    exact hp
  constructor
  · exact forward_consistency (WFnodes_of_sameStructure hp1 hwf) hrun
  · intro hnd hleaf nf i v hidx hv
    have hpers := assignInputs_persist g.independentFunctionList g.functionList 0 x_list
      hleaf hnd nf i v hidx (by rwa [Nat.zero_add])
    rw [hassign] at hpers
    obtain ⟨f1, hf1, hx1⟩ := hpers
    have hf1n : ns1[i]? = some f1 := hf1
    have hleaf1 : isLeafAt ns1 i :=
      isLeafAt_of_sameStructure hp1 (hleaf i (List.getElem?_mem hidx))
    have hx := forwardLoop_leaf_x hrun hleaf1
    rw [hf1n] at hx
    cases hg' : g'.functionList[i]? with
    | none => rw [hg'] at hx; exact absurd hx (by simp)
    | some f2 =>
      rw [hg'] at hx
      simp only [Option.map_some'] at hx
      exact ⟨f2, rfl, (Option.some.inj hx).trans hx1⟩

theorem gEx_wf : WFnodes gEx.functionList := by
  intro k f hk
  rcases k with _ | _ | _ | _ | _ | n
  · have he : gEx.functionList[0]? = some ⟨FId, [0], [], 0, Val.scalar 2, none⟩ := rfl
    rw [he] at hk
    cases hk
    right
    exact ⟨rfl, rfl⟩
  · have he : gEx.functionList[1]? = some ⟨FId, [1], [], 1, Val.scalar 3, none⟩ := rfl
    rw [he] at hk
    cases hk
    right
    exact ⟨rfl, rfl⟩
  · have he : gEx.functionList[2]? = some ⟨FId, [2], [], 2, Val.scalar 4, none⟩ := rfl
    rw [he] at hk
    cases hk
    right
    exact ⟨rfl, rfl⟩
  · have he : gEx.functionList[3]? = some ⟨FAdd, [1, 2], [], 3, Val.scalar 7, none⟩ := rfl
    rw [he] at hk
    cases hk
    left
    decide
  · have he : gEx.functionList[4]? = some ⟨FMul, [0, 3], [], 4, Val.scalar 14, none⟩ := rfl
    rw [he] at hk
    cases hk
    left
    decide
  · have he : gEx.functionList[n + 5]? = none := by
      refine List.getElem?_eq_none ?_
      show gEx.functionList.length ≤ n + 5
      have hlen : gEx.functionList.length = 5 := rfl
      omega
    rw [he] at hk
    exact absurd hk (by simp)

/-- C1 witness: the spec's example graph y = x1*(x2+x3), replayed with the
inputs (5, 1, 1). -/
theorem push_forward_forward_consistency_witness :
    WFnodes gEx.functionList ∧
    ((∀ (k : Nat) (f : Node), gEx'.functionList[k]? = some f →
        ∃ argvals, lookupVals gEx'.functionList f.args = some argvals ∧
          f.x = f.func (argvals ++ f.funcargs)) ∧
      (gEx.independentFunctionList.Nodup →
        (∀ i ∈ gEx.independentFunctionList, isLeafAt gEx.functionList i) →
        ∀ (nf i : Nat) (v : Val), gEx.independentFunctionList[nf]? = some i →
          xlEx[nf]? = some v →
          ∃ f, gEx'.functionList[i]? = some f ∧ f.x = v)) :=
  ⟨gEx_wf, push_forward_forward_consistency gEx gEx' xlEx gEx_wf rfl⟩


theorem GraphInv_empty : GraphInv CGraph.empty :=
  ⟨rfl, fun _ f hk => absurd hk (by simp [CGraph.empty])⟩

theorem GraphInv_append {g : CGraph} (hg : GraphInv g) {x : Val} {fargs : List Nat}
    {func : Fn} {funcargs : List Val}
    (hargs : (∀ j ∈ fargs, j < g.functionList.length) ∨
      (fargs = [g.functionList.length] ∧ func = FId)) :
    GraphInv (Function.create g x fargs func funcargs) := by
  obtain ⟨hcount, hnodes⟩ := hg
  constructor
  · simp [Function.create, hcount]
  · intro k f hk
    have hk' : (g.functionList ++
        [{ func := func, args := fargs, funcargs := funcargs,
           ID := g.functionCount, x := x, xbar := none }])[k]? = some f := hk
    by_cases hlt : k < g.functionList.length
    · rw [List.getElem?_append_left hlt] at hk'
      obtain ⟨hid, hrest⟩ := hnodes k f hk'
      exact ⟨hid, hrest⟩
    · rcases Nat.lt_or_ge k (g.functionList.length + 1) with hk1 | hk1
      · have hkeq : k = g.functionList.length := by omega
        subst hkeq
        rw [List.getElem?_concat_length] at hk'
        cases hk'
        refine ⟨hcount, ?_⟩
        rcases hargs with hl | ⟨ha, hfu⟩
        · exact Or.inl hl
        · exact Or.inr ⟨ha, hfu⟩
      · rw [List.getElem?_eq_none (by simp; omega)] at hk'
        exact absurd hk' (by simp)

theorem GraphInv_build :
    ∀ (steps : List BuildStep) (g : CGraph), GraphInv g →
      ValidSteps g.functionList.length steps → GraphInv (build g steps)
  | [], _, hg, _ => hg
  | .leaf x :: rest, g, hg, hv => by
    refine GraphInv_build rest _ (GraphInv_append hg (Or.inr ⟨rfl, rfl⟩)) ?_
    have hlen : (Function.mkLeaf g x).functionList.length = g.functionList.length + 1 := by
      simp [Function.mkLeaf, Function.create]
    rw [hlen]
    exact hv
  | .node x fargs func funcargs :: rest, g, hg, hv => by
    obtain ⟨hargs, hv'⟩ := hv
    refine GraphInv_build rest _ (GraphInv_append hg (Or.inl hargs)) ?_
    have hlen : (Function.create g x fargs func funcargs).functionList.length =
        g.functionList.length + 1 := by
      simp [Function.create]
    rw [hlen]
    exact hv'

/-- C2 counterexample: in the one-node graph created by Function(x), the leaf
node's argument list contains the node itself, whose id equals (and is not
strictly smaller than) the node's own id. -/
theorem leaf_violates_strict_arg_id_order :
    ¬ (∀ (k : Nat) (f : Node),
        (Function.mkLeaf CGraph.empty (Val.scalar 5)).functionList[k]? = some f →
        ∀ j ∈ f.args, ∀ (a : Node),
          (Function.mkLeaf CGraph.empty (Val.scalar 5)).functionList[j]? = some a →
          a.ID < f.ID) := by
  intro hcl
  have h0 : (Function.mkLeaf CGraph.empty (Val.scalar 5)).functionList[0]? =
      some ⟨FId, [0], [], 0, Val.scalar 5, none⟩ := rfl
  exact absurd (hcl 0 _ h0 0 (List.mem_cons_self 0 []) _ h0) (lt_irrefl 0)

/-- C2 amended: in any graph built from an empty graph by leaf creation and
node recording, every argument node's id is at most its dependent's id, with
equality exactly for the self-referential leaf Id nodes; for all other nodes
the inequality is strict. -/
theorem build_arg_id_le (steps : List BuildStep) (hv : ValidSteps 0 steps) :
    ∀ (k : Nat) (f : Node), (build CGraph.empty steps).functionList[k]? = some f →
      ∀ j ∈ f.args, ∃ a, (build CGraph.empty steps).functionList[j]? = some a ∧
        a.ID ≤ f.ID ∧ (a.ID = f.ID → f.args = [k] ∧ f.func = FId ∧ j = k) := by
  have hinv : GraphInv (build CGraph.empty steps) :=
    GraphInv_build steps CGraph.empty GraphInv_empty hv
  obtain ⟨hcount, hnodes⟩ := hinv
  intro k f hk j hj
  obtain ⟨hid, hargs⟩ := hnodes k f hk
  have hklen : k < (build CGraph.empty steps).functionList.length :=
    (List.getElem?_eq_some.mp hk).1
  rcases hargs with hlt | ⟨ha, hfu⟩
  · have hjk : j < k := hlt j hj
    cases hja : (build CGraph.empty steps).functionList[j]? with
    | none =>
      rw [List.getElem?_eq_none_iff] at hja
      omega
    | some a =>
      obtain ⟨hida, -⟩ := hnodes j a hja
      refine ⟨a, rfl, ?_, ?_⟩
      · rw [hida, hid]
        omega
      · intro heq
        rw [hida, hid] at heq
        omega
  · have hjk : j = k := by
      rw [ha] at hj
      simpa using hj
    subst hjk
    exact ⟨f, hk, le_refl _, fun _ => ⟨ha, hfu, rfl⟩⟩

theorem stepsC2_valid : ValidSteps 0 stepsC2 := ⟨by decide, trivial⟩

/-- C2 amended witness: two leaves and an addition node consuming both. -/
theorem build_arg_id_le_witness :
    ValidSteps 0 stepsC2 ∧
    (∀ (k : Nat) (f : Node), (build CGraph.empty stepsC2).functionList[k]? = some f →
      ∀ j ∈ f.args, ∃ a, (build CGraph.empty stepsC2).functionList[j]? = some a ∧
        a.ID ≤ f.ID ∧ (a.ID = f.ID → f.args = [k] ∧ f.func = FId ∧ j = k)) :=
  ⟨stepsC2_valid, build_arg_id_le stepsC2 stepsC2_valid⟩

/-- C3: calling CGraph.pullback with an empty dependent list raises the
"You forgot to specify which variables are dependent!" exception, and the
graph state it leaves behind is exactly the input graph: no node's adjoint
was touched before the raise. -/
theorem pullback_no_dependent_raises (g : CGraph) (pb : PbEnv) (xbar_list : List Val)
    (h : g.dependentFunctionList = []) :
    g.pullback pb xbar_list = .error (noDependentMsg, g) :=
  pullback_nil h

/-- C3 witness: a one-leaf graph with no declared dependent variables. -/
theorem pullback_no_dependent_raises_witness :
    gOneLeaf.dependentFunctionList = [] ∧
    gOneLeaf.pullback pbZero [] = .error (noDependentMsg, gOneLeaf) :=
  ⟨rfl, pullback_no_dependent_raises gOneLeaf pbZero [] rfl⟩

/-- C4 counterexample: CGraph.push_forward performs no count validation.
With one declared independent variable and two supplied values the call
succeeds (the surplus value is silently ignored) instead of failing with a
configuration error. -/
theorem push_forward_accepts_mismatched_count :
    gOneLeaf.independentFunctionList.length = 1 ∧
    gOneLeaf.push_forward [Val.scalar 7, Val.scalar 8] =
      .ok (withNodes gOneLeaf [⟨FId, [0], [], 0, Val.scalar 7, none⟩]) :=
  ⟨rfl, rfl⟩

/-- C4 amended: push_forward does not validate the input count.  Surplus
values beyond the declared independent variables are ignored (the assignment
loop reads only the first entries), and a deficit raises an IndexError from
reading x_list[nf] during the assignment loop, after the values for the
earlier independent nodes have already been installed. -/
theorem push_forward_count_mismatch_behavior (g : CGraph) (x_list extra : List Val)
    (hleaf : ∀ i ∈ g.independentFunctionList, isLeafAt g.functionList i)
    (hnd : g.independentFunctionList.Nodup) :
    (g.independentFunctionList.length ≤ x_list.length →
      assignInputs g.functionList g.independentFunctionList 0 (x_list ++ extra) =
        assignInputs g.functionList g.independentFunctionList 0 x_list) ∧
    (x_list.length < g.independentFunctionList.length →
      ∃ ns', assignInputs g.functionList g.independentFunctionList 0 x_list =
          .error (.indexError "list index out of range", ns') ∧
        g.push_forward x_list =
          .error (.indexError "list index out of range", withNodes g ns') ∧
        ∀ (m i : Nat) (v : Val), g.independentFunctionList[m]? = some i →
          x_list[m]? = some v → ∃ f, ns'[i]? = some f ∧ f.x = v) := by
  constructor
  · intro hle
    exact assignInputs_surplus g.independentFunctionList g.functionList 0 x_list extra
      (by omega)
  · intro hlt
    obtain ⟨ns', herr⟩ := assignInputs_deficit g.independentFunctionList g.functionList 0
      x_list hleaf (Nat.zero_le _) (by omega)
    refine ⟨ns', herr, push_forward_assign_error herr, ?_⟩
    intro m i v him hv
    have hpers := assignInputs_persist g.independentFunctionList g.functionList 0 x_list
      hleaf hnd m i v him (by rwa [Nat.zero_add])
    rw [herr] at hpers
    exact hpers

theorem gTwoLeaf_leaves :
    ∀ i ∈ gTwoLeaf.independentFunctionList, isLeafAt gTwoLeaf.functionList i := by
  intro i hi
  have hil : gTwoLeaf.independentFunctionList = [0, 1] := rfl
  rw [hil] at hi
  have hmem : i = 0 ∨ i = 1 := by simpa using hi
  rcases hmem with rfl | rfl
  · exact ⟨⟨FId, [0], [], 0, Val.scalar 1, none⟩, rfl, rfl, rfl⟩
  · exact ⟨⟨FId, [1], [], 1, Val.scalar 2, none⟩, rfl, rfl, rfl⟩

/-- C4 amended witness: two declared independent leaves replayed with a
single supplied value. -/
theorem push_forward_count_mismatch_behavior_witness :
    (∀ i ∈ gTwoLeaf.independentFunctionList, isLeafAt gTwoLeaf.functionList i) ∧
    gTwoLeaf.independentFunctionList.Nodup ∧
    ((gTwoLeaf.independentFunctionList.length ≤ ([Val.scalar 9] : List Val).length →
      assignInputs gTwoLeaf.functionList gTwoLeaf.independentFunctionList 0
          ([Val.scalar 9] ++ []) =
        assignInputs gTwoLeaf.functionList gTwoLeaf.independentFunctionList 0
          [Val.scalar 9]) ∧
    (([Val.scalar 9] : List Val).length < gTwoLeaf.independentFunctionList.length →
      ∃ ns', assignInputs gTwoLeaf.functionList gTwoLeaf.independentFunctionList 0
          [Val.scalar 9] = .error (.indexError "list index out of range", ns') ∧
        gTwoLeaf.push_forward [Val.scalar 9] =
          .error (.indexError "list index out of range", withNodes gTwoLeaf ns') ∧
        ∀ (m i : Nat) (v : Val), gTwoLeaf.independentFunctionList[m]? = some i →
          ([Val.scalar 9] : List Val)[m]? = some v →
          ∃ f, ns'[i]? = some f ∧ f.x = v)) :=
  ⟨gTwoLeaf_leaves, by decide,
    push_forward_count_mismatch_behavior gTwoLeaf [Val.scalar 9] [] gTwoLeaf_leaves
      (by decide)⟩

/-- C9: every leaf node created by Function(x) with a value is
self-referential: its argument list is the one-element tuple containing the
node itself (its own index) and its operation is Id; consequently the
input-installing loop of CGraph.push_forward writes the new input value into
the leaf node's own value field. -/
theorem leaf_nodes_self_referential (g : CGraph) (x v : Val) :
    ∃ f, (Function.mkLeaf g x).functionList[g.functionList.length]? = some f ∧
      f.args = [g.functionList.length] ∧ f.func = FId ∧ f.x = x ∧
      assignInputs (Function.mkLeaf g x).functionList [g.functionList.length] 0 [v] =
        .ok ((Function.mkLeaf g x).functionList.set g.functionList.length
          { f with x := v }) := by
  have hf : (Function.mkLeaf g x).functionList[g.functionList.length]? =
      some ⟨FId, [g.functionList.length], [], g.functionCount, x, none⟩ :=
    List.getElem?_concat_length _ _
  refine ⟨⟨FId, [g.functionList.length], [], g.functionCount, x, none⟩,
    hf, rfl, rfl, rfl, ?_⟩
  rw [assignInputs_cons_step rfl hf rfl hf]
  rfl


theorem initStep_x {ns : List Node} {k : Nat} {ns' : List Node}
    (h : initStep ns k = .ok ns') :
    ∀ m : Nat, (ns'[m]?).map (·.x) = (ns[m]?).map (·.x) := by
  unfold initStep at h
  split at h
  · exact absurd h (by simp)
  next f hk =>
    split at h
    · exact absurd h (by simp)
    next z hz =>
      cases h
      intro m
      by_cases hm : k = m
      · subst hm
        rw [List.getElem?_set_self (List.getElem?_eq_some.mp hk).1, hk]
        rfl
      · rw [List.getElem?_set_ne hm]

theorem initRun_x :
    ∀ (ks : List Nat) (ns ns' : List Node), runAll initStep ns ks = .ok ns' →
      ∀ m : Nat, (ns'[m]?).map (·.x) = (ns[m]?).map (·.x)
  | [], ns, ns', h, m => by
    unfold runAll at h
    cases h
    rfl
  | k :: ks, ns, ns', h, m => by
    rw [runAll_cons] at h
    split at h
    · exact absurd h (by simp)
    next ns1 hstep =>
      exact (initRun_x ks ns1 ns' h m).trans (initStep_x hstep m)

/-- After the adjoint-clearing loop succeeds, every node's adjoint holds
exactly the value computed by xbar_from_x from its (unchanged) value. -/
theorem initRun_adjoints {ns ns' : List Node}
    (h : runAll initStep ns (List.range ns.length) = .ok ns') :
    ∀ (k : Nat) (f : Node), ns'[k]? = some f →
      ∃ z, xbar_from_x f.x = some z ∧ f.xbar = some z := by
  intro k f hk
  have hlen : nodesSameStructure ns ns' := by
    have hp := runAll_preserves initStep_preserves (List.range ns.length) ns
    rw [h] at hp
    exact hp
  have hkn : k < ns.length := by
    have hk' : k < ns'.length := (List.getElem?_eq_some.mp hk).1
    rw [hlen.1]
    exact hk'
  have hsplit : List.range ns.length =
      List.range (k + 1) ++ (List.range (ns.length - (k + 1))).map ((k + 1) + ·) := by
    rw [← List.range_add]
    congr 1
    omega
  rw [hsplit, runAll_append] at h
  rcases h1 : runAll initStep ns (List.range (k + 1)) with e | mid
  · rw [h1] at h; exact absurd h (by simp)
  rw [h1] at h
  rw [List.range_succ, runAll_append] at h1
  rcases h2 : runAll initStep ns (List.range k) with e | pre
  · rw [h2] at h1; exact absurd h1 (by simp)
  rw [h2] at h1
  have hstep : initStep pre k = .ok mid := by
    unfold runAll at h1
    split at h1
    · exact absurd h1 (by simp)
    next ns1 hs =>
      unfold runAll at h1
      cases h1
      exact hs
  have hprelen : pre.length = ns.length := by
    have hp := runAll_preserves initStep_preserves (List.range k) ns
    rw [h2] at hp
    exact hp.1.symm
  have hresti : ns'[k]? = mid[k]? := by
    refine runAll_local initStep_local _ mid ns' h k ?_
    intro hmem
    rw [List.mem_map] at hmem
    obtain ⟨a, -, ha⟩ := hmem
    omega
  unfold initStep at hstep
  split at hstep
  · exact absurd hstep (by simp)
  next f0 hk0 =>
    split at hstep
    · exact absurd hstep (by simp)
    next z hz =>
      cases hstep
      have hmidk : (pre.set k { f0 with xbar := some z })[k]? =
          some { f0 with xbar := some z } :=
        List.getElem?_set_self (by rw [hprelen]; exact hkn)
      have hf : f = { f0 with xbar := some z } := by
        have := (hresti.symm.trans hk).symm.trans hmidk
        exact (Option.some.inj this.symm).symm
      subst hf
      exact ⟨z, hz, rfl⟩

theorem seedOutputs_cons (ns : List Node) (d : Nat) (rest : List Nat) (nf : Nat)
    (xbar_list : List Val) :
    seedOutputs ns (d :: rest) nf xbar_list =
      match xbar_list[nf]? with
      | none => .error (.indexError "list index out of range", ns)
      | some v =>
        match ns[d]? with
        | none => .error (.badRef, ns)
        | some f =>
          match f.xbar with
          | none => .error (.typeError "NotSet object does not support item assignment", ns)
          | some b =>
            match setitemEllipsis b v with
            | .error e => .error (e, ns)
            | .ok b' => seedOutputs (ns.set d { f with xbar := some b' }) rest (nf + 1)
                xbar_list :=
  rfl

theorem seedOutputs_cons_fail {ns : List Node} {d : Nat} {rest : List Nat} {nf : Nat}
    {xbar_list : List Val} {v : Val} {f : Node} {b : Val} {e : PyErr}
    (hv : xbar_list[nf]? = some v) (hd : ns[d]? = some f) (hb : f.xbar = some b)
    (hset : setitemEllipsis b v = .error e) :
    seedOutputs ns (d :: rest) nf xbar_list = .error (e, ns) := by
  rw [seedOutputs_cons]
  simp only [hv, hd, hb, hset]

/-- C5: given a non-empty dependent list, CGraph.pullback first runs the
adjoint-clearing loop and only then seeds and propagates; once that loop has
completed and before any output adjoint is seeded, every node's adjoint is
the additive identity shaped like its value: the float 0. for a Python
scalar value, a tuple of zeros_like elements for a tuple value, and
value.zeros_like() otherwise. -/
theorem pullback_initial_adjoints (g : CGraph) (pb : PbEnv) (xbar_list : List Val)
    (d : Nat) (rest : List Nat) (ns1 : List Node)
    (hdep : g.dependentFunctionList = d :: rest)
    (hinit : runAll initStep g.functionList (List.range g.functionList.length) = .ok ns1) :
    g.pullback pb xbar_list = pullbackAfterInit g pb xbar_list ns1 ∧
    ∀ (k : Nat) (f : Node), ns1[k]? = some f →
      ((∃ q, f.x = Val.scalar q) → f.xbar = some (Val.scalar 0)) ∧
      (∀ ts, f.x = Val.tup ts → ∃ zs, ts.mapM Val.zeros_like = some zs ∧
        f.xbar = some (Val.tup zs)) ∧
      (∀ xs, f.x = Val.arr xs → f.xbar = (Val.arr xs).zeros_like) := by
  constructor
  · rw [pullback_cons hdep, hinit]
  · intro k f hk
    obtain ⟨z, hz, hzbar⟩ := initRun_adjoints hinit k f hk
    refine ⟨?_, ?_, ?_⟩
    · rintro ⟨q, hq⟩
      rw [hq] at hz
      have hz0 : z = Val.scalar 0 := (Option.some.inj hz).symm
      rw [hzbar, hz0]
    · intro ts hts
      rw [hts] at hz
      have hz' : (ts.mapM Val.zeros_like).map Val.tup = some z := hz
      cases hmm : ts.mapM Val.zeros_like with
      | none => rw [hmm] at hz'; exact absurd hz' (by simp)
      | some zs =>
        rw [hmm] at hz'
        simp only [Option.map_some'] at hz'
        exact ⟨zs, rfl, by rw [hzbar, ← Option.some.inj hz']⟩
    · intro xs hxs
      rw [hxs] at hz
      rw [hzbar, ← hz]
      rfl

/-- C5 witness: a one-node graph whose scalar leaf is the dependent
variable. -/
theorem pullback_initial_adjoints_witness :
    gScalarDep.dependentFunctionList = [0] ∧
    runAll initStep gScalarDep.functionList
      (List.range gScalarDep.functionList.length) = .ok nsScalarInit ∧
    (gScalarDep.pullback pbZero [Val.scalar 1] =
        pullbackAfterInit gScalarDep pbZero [Val.scalar 1] nsScalarInit ∧
      ∀ (k : Nat) (f : Node), nsScalarInit[k]? = some f →
        ((∃ q, f.x = Val.scalar q) → f.xbar = some (Val.scalar 0)) ∧
        (∀ ts, f.x = Val.tup ts → ∃ zs, ts.mapM Val.zeros_like = some zs ∧
          f.xbar = some (Val.tup zs)) ∧
        (∀ xs, f.x = Val.arr xs → f.xbar = (Val.arr xs).zeros_like)) :=
  ⟨rfl, rfl,
    pullback_initial_adjoints gScalarDep pbZero [Val.scalar 1] 0 [] nsScalarInit rfl rfl⟩

/-- C10: when the first dependent node's value is a Python scalar (or a
tuple), CGraph.pullback fails at the output-seeding step with a TypeError:
the adjoint-clearing loop set that node's adjoint to the float 0.
(respectively a tuple), and the in-place assignment f.xbar[...] = xbar_list[nf]
is unsupported by floats and tuples.  The state it reports is the one
produced by the clearing loop. -/
theorem pullback_seed_type_error (g : CGraph) (pb : PbEnv) (xbar_list : List Val)
    (d : Nat) (rest : List Nat) (ns1 : List Node) (f : Node) (v : Val)
    (hdep : g.dependentFunctionList = d :: rest)
    (hinit : runAll initStep g.functionList (List.range g.functionList.length) = .ok ns1)
    (hv : xbar_list[0]? = some v)
    (hf : ns1[d]? = some f)
    (hx : (∃ q, f.x = Val.scalar q) ∨ (∃ ts, f.x = Val.tup ts)) :
    ∃ msg, g.pullback pb xbar_list = .error (.typeError msg, withNodes g ns1) := by
  obtain ⟨z, hz, hzbar⟩ := initRun_adjoints hinit d f hf
  have hberr : ∃ msg, setitemEllipsis z v = .error (.typeError msg) := by
    rcases hx with ⟨q, hq⟩ | ⟨ts, hts⟩
    · rw [hq] at hz
      have hz0 : z = Val.scalar 0 := (Option.some.inj hz).symm
      rw [hz0]
      exact ⟨_, rfl⟩
    · rw [hts] at hz
      have hz' : (ts.mapM Val.zeros_like).map Val.tup = some z := hz
      cases hmm : ts.mapM Val.zeros_like with
      | none => rw [hmm] at hz'; exact absurd hz' (by simp)
      | some zs =>
        rw [hmm] at hz'
        simp only [Option.map_some'] at hz'
        rw [← Option.some.inj hz']
        exact ⟨_, rfl⟩
  obtain ⟨msg, hset⟩ := hberr
  refine ⟨msg, ?_⟩
  rw [pullback_cons hdep, hinit]
  show pullbackAfterInit g pb xbar_list ns1 = _
  rw [pullbackAfterInit_eq, hdep, seedOutputs_cons_fail hv hf hzbar hset]

/-- C10 witness: the scalar-valued dependent leaf of gScalarDep makes the
seeding step raise a TypeError. -/
theorem pullback_seed_type_error_witness :
    gScalarDep.dependentFunctionList = [0] ∧
    runAll initStep gScalarDep.functionList
      (List.range gScalarDep.functionList.length) = .ok nsScalarInit ∧
    (([Val.scalar 1] : List Val)[0]? = some (Val.scalar 1)) ∧
    nsScalarInit[0]? = some ⟨FId, [0], [], 0, Val.scalar 5, some (Val.scalar 0)⟩ ∧
    (∃ msg, gScalarDep.pullback pbZero [Val.scalar 1] =
      .error (.typeError msg, withNodes gScalarDep nsScalarInit)) :=
  ⟨rfl, rfl, rfl, rfl,
    pullback_seed_type_error gScalarDep pbZero [Val.scalar 1] 0 [] nsScalarInit
      ⟨FId, [0], [], 0, Val.scalar 5, some (Val.scalar 0)⟩ (Val.scalar 1)
      rfl rfl rfl rfl (Or.inl ⟨5, rfl⟩)⟩

/-- C7: for every function produced by the basecase decorator, a negative
derivative order n raises "n must be a nonnegative integer"; the result does
not depend on the zeroth-derivative base function or on the wrapped
derivative formula, so neither is invoked before the raise. -/
theorem wrapped_f_negative_order_raises
    (fn_zeroth_deriv : List Val → Option Val → Val)
    (f : List Val → Option Val → Int → Val)
    (args : List Val) (out : Option Val) (n : Int) (h : n < 0) :
    wrapped_f fn_zeroth_deriv f args out n =
      .error (.valueError "n must be a nonnegative integer") := by
  unfold wrapped_f
  rw [if_pos h]

/-- C7 witness: order -1 with arbitrary base and derivative functions. -/
theorem wrapped_f_negative_order_raises_witness :
    (-1 : Int) < 0 ∧
    wrapped_f (fun _ _ => Val.scalar 0) (fun _ _ _ => Val.scalar 1) [] none (-1) =
      .error (.valueError "n must be a nonnegative integer") :=
  ⟨by decide,
    wrapped_f_negative_order_raises (fun _ _ => Val.scalar 0) (fun _ _ _ => Val.scalar 1)
      [] none (-1) (by decide)⟩

/-- C8: for every function produced by the basecase decorator, derivative
order n = 0 (the default when n is omitted) returns exactly the value of the
wrapped zeroth-derivative base function applied to the same arguments,
forwarding the out argument when given. -/
theorem wrapped_f_zeroth_order_value
    (fn_zeroth_deriv : List Val → Option Val → Val)
    (f : List Val → Option Val → Int → Val)
    (args : List Val) (out : Option Val) :
    wrapped_f fn_zeroth_deriv f args out 0 = .ok (fn_zeroth_deriv args out) := by
  cases out with
  | none => rfl
  | some o => rfl

end Algopy
